import Mathlib

/-!
Verification of the fuzzy game-name resolution engine of StreamNook
(`src/discord_game_matcher.py`).

The Python module is shallowly embedded below.  Strings are Lean `String`s
(lists of Unicode scalar values, matching Python's code-point view of `str`);
Python floats are modelled as exact rationals `ℚ` (every score produced by the
module is a ratio of small integers); `dict.get` of an optional field is
modelled as `Option String`, and Python truthiness of such a field as
"present and non-empty".  `str.casefold` is modelled as ASCII lowercasing and
`\s` as the ASCII whitespace recognised by `Char.isWhitespace`; the concrete
inputs appearing in the theorems below are ASCII, where the two coincide with
Python's behaviour.  The regular-expression substitutions of
`_clean_game_name` are embedded as explicit scanners, one per pattern,
replicating `re.sub`'s leftmost, non-overlapping semantics (with backtracking
resolved as the patterns force: each literal after a greedy `\s*` is a
non-whitespace character, so the greedy run is consumed exactly).
`difflib.SequenceMatcher.ratio` (no junk, strings far below the autojunk
limit) is embedded as the Ratcliff/Obershelp recursion: repeatedly take the
longest common contiguous block (earliest in the first string, then earliest
in the second, on ties) and recurse on both sides.
-/

/-- Python `str.strip()`: drop leading and trailing whitespace. -/
def stripChars (l : List Char) : List Char :=
  ((l.dropWhile Char.isWhitespace).reverse.dropWhile Char.isWhitespace).reverse

/-- Embedding of `_norm`: `(s or "").strip().casefold()` (casefold as ASCII
lowercasing). -/
def _norm (s : String) : String :=
  String.mk ((stripChars s.toList).map Char.toLower)

/-- Helper for `splitWs`: accumulate the current word (reversed) while
scanning. -/
def wordsAux : List Char → List Char → List (List Char)
  | [], acc => if acc.isEmpty then [] else [acc.reverse]
  | c :: rest, acc =>
    if c.isWhitespace then
      if acc.isEmpty then wordsAux rest [] else acc.reverse :: wordsAux rest []
    else wordsAux rest (c :: acc)

/-- Python `str.split()` with no arguments: split on whitespace runs,
discarding empty pieces. -/
def splitWs (l : List Char) : List (List Char) := wordsAux l []

/-- Python `' '.join(ws)`. -/
def joinSpace : List (List Char) → List Char
  | [] => []
  | [w] => w
  | w :: ws => w ++ ' ' :: joinSpace ws

/-- Python substring test `needle in hay`. -/
def strContains (hay needle : List Char) : Bool :=
  hay.tails.any needle.isPrefixOf

/-- String-level substring test, `needle in hay` on `str`. -/
def strContainsS (hay needle : String) : Bool :=
  strContains hay.toList needle.toList

/-- Python `s.split(sep)[0]` for a non-empty separator: the part of `s`
before the first occurrence of `sep` (all of `s` when `sep` does not
occur). -/
def beforeFirst : List Char → List Char → List Char
  | [], _ => []
  | c :: rest, sep =>
    if sep.isPrefixOf (c :: rest) then []
    else c :: beforeFirst rest sep

/-- Embedding of `_extract_core_name`: the `for sep in [':', ' - ', '–', '—']`
loop unrolled; the first separator of the list that occurs anywhere in the
name wins, and the part before its first occurrence is stripped. -/
def _extract_core_name (name : String) : String :=
  if strContains name.toList [':'] then
    String.mk (stripChars (beforeFirst name.toList [':']))
  else if strContains name.toList [' ', '-', ' '] then
    String.mk (stripChars (beforeFirst name.toList [' ', '-', ' ']))
  else if strContains name.toList ['–'] then
    String.mk (stripChars (beforeFirst name.toList ['–']))
  else if strContains name.toList ['—'] then
    String.mk (stripChars (beforeFirst name.toList ['—']))
  else name

/-- Removal of the trademark glyphs, `re.sub(r'[®™©]', '', name)`. -/
def removeTrademark (l : List Char) : List Char :=
  l.filter (fun c => !(c == '®' || c == '™' || c == '©'))

/-- Generic `re.sub(pattern, ' ', s)` driver: `matchAt l` returns the length
of the pattern match anchored at the head of `l`, if any.  Scanning is
leftmost and non-overlapping, exactly as `re.sub`: on a match of length
`n ≥ 1` emit one space and resume after the match, otherwise keep the head
character and resume at the next position.  Structural recursion on a fuel
counter; every step consumes at least one character, so the wrapper's fuel
(the length of the string) never runs out. -/
def reSubF (matchAt : List Char → Option Nat) : Nat → List Char → List Char
  | _, [] => []
  | 0, l => l
  | f + 1, c :: rest =>
    match matchAt (c :: rest) with
    | some n => ' ' :: reSubF matchAt f (rest.drop (n - 1))
    | none => c :: reSubF matchAt f rest

/-- Run a single `re.sub(pattern, ' ', ·)` pass over the whole string. -/
def reSub (matchAt : List Char → Option Nat) (l : List Char) : List Char :=
  reSubF matchAt l.length l

/-- Index of the first `close` character, failing on a newline first (the
lazy `.*?\)` of the pattern cannot cross a newline, `.` not matching `\n`). -/
def scanCloseIdx (close : Char) : List Char → Option Nat
  | [] => none
  | c :: rest =>
    if c = close then some 0
    else if c = '\n' then none
    else (scanCloseIdx close rest).map (fun k => k + 1)

/-- Anchored match of `\s*\(.*?\)\s*` (resp. `\s*\[.*?\]\s*`): greedy
whitespace, the opening bracket, the lazy shortest newline-free interior up
to the first closing bracket, then greedy trailing whitespace.  Returns the
total matched length. -/
def matchBracketAt (opn cls : Char) (l : List Char) : Option Nat :=
  let w := (l.takeWhile Char.isWhitespace).length
  match l.drop w with
  | c :: rest =>
    if c = opn then
      match scanCloseIdx cls rest with
      | some inner =>
        some (w + 1 + inner + 1 +
          ((rest.drop (inner + 1)).takeWhile Char.isWhitespace).length)
      | none => none
    else none
  | [] => none

/-- Anchored match of `\s*:\s*[Tt]he\s+`. -/
def matchColonTheAt (l : List Char) : Option Nat :=
  let w := (l.takeWhile Char.isWhitespace).length
  match l.drop w with
  | ':' :: rest =>
    let w2 := (rest.takeWhile Char.isWhitespace).length
    match rest.drop w2 with
    | t :: h :: e :: rest2 =>
      if (t = 'T' ∨ t = 't') ∧ h = 'h' ∧ e = 'e' then
        let w3 := (rest2.takeWhile Char.isWhitespace).length
        if w3 = 0 then none else some (w + 1 + w2 + 3 + w3)
      else none
    | _ => none
  | _ => none

/-- Anchored match of `\s*-\s*[Ss]eason\s+\d+` (digits greedy). -/
def matchSeasonAt (l : List Char) : Option Nat :=
  let w := (l.takeWhile Char.isWhitespace).length
  match l.drop w with
  | '-' :: rest =>
    let w2 := (rest.takeWhile Char.isWhitespace).length
    match rest.drop w2 with
    | s :: e :: a :: s2 :: o :: n :: rest2 =>
      if (s = 'S' ∨ s = 's') ∧ e = 'e' ∧ a = 'a' ∧ s2 = 's' ∧ o = 'o' ∧ n = 'n' then
        let w3 := (rest2.takeWhile Char.isWhitespace).length
        if w3 = 0 then none
        else
          let digs := ((rest2.drop w3).takeWhile Char.isDigit).length
          if digs = 0 then none else some (w + 1 + w2 + 6 + w3 + digs)
      else none
    | _ => none
  | _ => none

/-- Anchored match of an end-of-string pattern `\s*[Xx]tail$`: greedy
whitespace, the head letter in either case, then exactly `tail` and the end
of the string. -/
def matchCIWordEnd (u low : Char) (tail : List Char) (l : List Char) : Option Nat :=
  let w := (l.takeWhile Char.isWhitespace).length
  match l.drop w with
  | c :: rest =>
    if (c = u ∨ c = low) ∧ rest = tail then some (w + 1 + tail.length) else none
  | [] => none

/-- Anchored match of `\s*[Dd]efinitive\s+[Ee]dition$`. -/
def matchDefEdEnd (l : List Char) : Option Nat :=
  let w := (l.takeWhile Char.isWhitespace).length
  match l.drop w with
  | c :: rest =>
    if (c = 'D' ∨ c = 'd') ∧ rest.take 9 = "efinitive".toList then
      let rest2 := rest.drop 9
      let w2 := (rest2.takeWhile Char.isWhitespace).length
      if w2 = 0 then none
      else
        match rest2.drop w2 with
        | e :: rest3 =>
          if (e = 'E' ∨ e = 'e') ∧ rest3 = "dition".toList then
            some (w + 10 + w2 + 7)
          else none
        | [] => none
    else none
  | [] => none

/-- Embedding of `_clean_game_name`: strip trademark glyphs, apply the seven
`re.sub(pattern, ' ', ...)` substitutions in source order, collapse
whitespace with `' '.join(cleaned.split())`, and `_norm` the result. -/
def _clean_game_name (name : String) : String :=
  if name = "" then ""
  else
    let l0 := removeTrademark name.toList
    let l1 := reSub (matchBracketAt '(' ')') l0
    let l2 := reSub (matchBracketAt '[' ']') l1
    let l3 := reSub matchColonTheAt l2
    let l4 := reSub matchSeasonAt l3
    let l5 := reSub (matchCIWordEnd 'E' 'e' "dition".toList) l4
    let l6 := reSub (matchCIWordEnd 'R' 'r' "emastered".toList) l5
    let l7 := reSub matchDefEdEnd l6
    _norm (String.mk (joinSpace (splitWs l7)))

example : _norm "  AbC " = "abc" := by decide
example : _extract_core_name "A - B: C" = "A - B" := by decide
example : _extract_core_name "Halo 3" = "Halo 3" := by decide
example : _clean_game_name "(foo)" = "" := by decide
example : _clean_game_name "[bar]" = "" := by decide
example : _clean_game_name "Halo: The Master Chief" = "halo master chief" := by decide
example : _clean_game_name "Game® - Season 23" = "game" := by decide
example : _clean_game_name "Doom Remastered" = "doom" := by decide
example : _clean_game_name "Counter-Strike: Global Offensive" = "counter-strike: global offensive" := by decide

/-- Length of the longest common prefix of two lists. -/
def commonPrefixLen : List Char → List Char → Nat
  | a :: as, b :: bs => if a = b then commonPrefixLen as bs + 1 else 0
  | _, _ => 0

/-- Best anchored match of `q` against the suffixes of `b`: returns `(j, k)`
with `k = commonPrefixLen q (b.drop j)` maximal, and `j` smallest among the
maxima (a later start replaces the current one only on a strictly longer
run). -/
def bestInRow (q : List Char) : List Char → Nat × Nat
  | [] => (0, 0)
  | c :: rest =>
    let k := commonPrefixLen q (c :: rest)
    let p := bestInRow q rest
    if k < p.2 then (p.1 + 1, p.2) else (0, k)

/-- Scan the suffixes of the first string, keeping the longest run (earliest
start in the first string, then earliest in the second, on ties). -/
def flmAux (b : List Char) : List Char → Nat × Nat × Nat
  | [] => (0, 0, 0)
  | c :: rest =>
    let p := bestInRow (c :: rest) b
    let q := flmAux b rest
    if p.2 < q.2.2 then (q.1 + 1, q.2.1, q.2.2) else (0, p.1, p.2)

/-- Embedding of `SequenceMatcher.find_longest_match` over the whole of both
strings (no junk; the inputs are far below difflib's autojunk threshold):
the longest common contiguous block `(i, j, k)`, ties resolved to the
earliest start in the first string, then the earliest in the second. -/
def findLongestMatch (a b : List Char) : Nat × Nat × Nat :=
  flmAux b a

/-- Total size of the Ratcliff/Obershelp matching blocks
(`sum(size for _, _, size in get_matching_blocks())`), by fuel-indexed
structural recursion: take the longest match and recurse on the pieces to
its left and to its right.  Each recursive call strictly decreases the sum
of lengths, so fuel `a.length + b.length` is always sufficient. -/
def ratcliffMF : Nat → List Char → List Char → Nat
  | 0, _, _ => 0
  | f + 1, a, b =>
    let t := findLongestMatch a b
    if t.2.2 = 0 then 0
    else
      t.2.2 + ratcliffMF f (a.take t.1) (b.take t.2.1) +
        ratcliffMF f (a.drop (t.1 + t.2.2)) (b.drop (t.2.1 + t.2.2))

/-- Embedding of `_similarity_score`, i.e. `SequenceMatcher(None, s1, s2)
.ratio()`: `2 * M / T` where `M` is the total matched size and `T` the sum of
the lengths, and `1.0` when both strings are empty (difflib's
`_calculate_ratio`). -/
def _similarity_score (s1 s2 : String) : ℚ :=
  let a := s1.toList
  let b := s2.toList
  if a.length + b.length = 0 then 1
  else 2 * (ratcliffMF (a.length + b.length) a b : ℚ) / ((a.length : ℚ) + (b.length : ℚ))

/-- The stop-word set of `_tokenize`. -/
def stopWords : Finset String :=
  {"the", "a", "an", "of", "in", "on", "at", "to", "for"}

/-- Embedding of `_tokenize`: `set(_norm(name).split()) - stop_words`. -/
def _tokenize (name : String) : Finset String :=
  ((splitWs (_norm name).toList).map String.mk).toFinset \ stopWords

section
attribute [local semireducible] Rat.mul Rat.add Rat.inv Rat.sub Rat.ofScientific
set_option maxRecDepth 10000

example : _similarity_score "counter-strike 2" "counter-strike" = 14 / 15 := by decide
example : _similarity_score "abc" "xyz" = 0 := by decide
example : _tokenize "The Counter-Strike 2" = {"counter-strike", "2"} := by decide

end

/-- Embedding of one element of the `discord_apps` list.  `name` is
`app.get("name", "")` and `aliases` is `app.get("aliases") or []`; the three
optional fields are `dict.get` results, `none` when the key is missing. -/
structure DiscordApp where
  name : String
  aliases : List String
  id : Option String
  icon_hash : Option String
  cover_image : Option String
deriving DecidableEq

/-- Python truthiness of an optional string field: present and non-empty. -/
def truthy (o : Option String) : Bool :=
  o.getD "" != ""

/-- The score the inner loop of `resolve_discord_game_image_improved`
computes for one `check_name` variant against the query, lines 98-126 of
`discord_game_matcher.py`: the five-rule cascade (exact normalized match,
clean-name match, core-name match, substring containment, similarity/token
fallback). -/
def variantScore (game_name check_name : String) : ℚ :=
  let g_norm := _norm game_name
  let g_clean := _clean_game_name game_name
  let g_core := _norm (_extract_core_name game_name)
  let g_tokens := _tokenize game_name
  let cn_norm := _norm check_name
  let cn_clean := _clean_game_name check_name
  let cn_core := _norm (_extract_core_name check_name)
  let cn_tokens := _tokenize check_name
  if g_norm = cn_norm then 1
  else if g_clean = cn_clean then 0.95
  else if g_core ≠ "" ∧ cn_core ≠ "" ∧ g_core = cn_core then 0.9
  else if strContainsS cn_norm g_norm || strContainsS g_norm cn_norm then
    let overlap_len := min g_norm.length cn_norm.length
    let max_len := max g_norm.length cn_norm.length
    0.8 + 0.1 * (overlap_len : ℚ) / (max_len : ℚ)
  else
    let sim_norm := _similarity_score g_norm cn_norm
    let sim_clean := _similarity_score g_clean cn_clean
    let sim_core :=
      if g_core ≠ "" ∧ cn_core ≠ "" then _similarity_score g_core cn_core else 0
    let score := max sim_norm (max sim_clean sim_core)
    if g_tokens ≠ ∅ ∧ cn_tokens ≠ ∅ then
      let common_tokens := g_tokens ∩ cn_tokens
      if common_tokens ≠ ∅ then
        let token_score := (common_tokens.card : ℚ) /
          (max g_tokens.card cn_tokens.card : ℚ)
        max score (token_score * 0.85)
      else score
    else score

/-- One `check_name` step of the best-match loop: replace the running best
`(best_match, best_score)` only when `score > best_score and
score >= threshold`. -/
def considerVariant (game_name : String) (threshold : ℚ) (app : DiscordApp)
    (st : Option DiscordApp × ℚ) (check_name : String) : Option DiscordApp × ℚ :=
  let score := variantScore game_name check_name
  if st.2 < score ∧ threshold ≤ score then (some app, score) else st

/-- The candidate-enumeration and best-match-selection loops of
`resolve_discord_game_image_improved` (lines 85-130): entries with an empty
name are skipped, otherwise the name followed by the aliases are scored in
order. -/
def selectBest (game_name : String) (discord_apps : List DiscordApp)
    (threshold : ℚ) : Option DiscordApp × ℚ :=
  discord_apps.foldl
    (fun st app =>
      if app.name = "" then st
      else (app.name :: app.aliases).foldl (considerVariant game_name threshold app) st)
    (none, (0 : ℚ))

/-- The URL-resolution tail of `resolve_discord_game_image_improved`
(lines 138-166): prefer the cover image, fall back to the icon hash, both
requiring a truthy `id`. -/
def urlFor (best_match : DiscordApp) (size : ℕ) : Option String :=
  if truthy best_match.cover_image && truthy best_match.id then
    some ("https://cdn.discordapp.com/app-assets/" ++ best_match.id.getD "" ++ "/"
      ++ best_match.cover_image.getD "" ++ ".png?size=" ++ toString size)
  else if truthy best_match.icon_hash && truthy best_match.id then
    some ("https://cdn.discordapp.com/app-icons/" ++ best_match.id.getD "" ++ "/"
      ++ best_match.icon_hash.getD "" ++ ".png?size=" ++ toString size)
  else none

/-- Embedding of `resolve_discord_game_image_improved`.  The `debug`
parameter only controls printing and is omitted. -/
def resolve_discord_game_image_improved (game_name : String)
    (discord_apps : List DiscordApp) (threshold : ℚ) (size : ℕ) : Option String :=
  if game_name = "" ∨ discord_apps = [] then none
  else
    match (selectBest game_name discord_apps threshold).1 with
    | none => none
    | some best_match => urlFor best_match size

/-- The flattened enumeration order of the selection loops: for each entry
with a non-empty name, the name then the aliases. -/
def variantsOf (discord_apps : List DiscordApp) : List (DiscordApp × String) :=
  discord_apps.flatMap fun app =>
    if app.name = "" then []
    else (app.name :: app.aliases).map fun v => (app, v)

/-- One step of the selection fold in flattened form. -/
def stepSel (game_name : String) (threshold : ℚ)
    (st : Option DiscordApp × ℚ) (p : DiscordApp × String) : Option DiscordApp × ℚ :=
  considerVariant game_name threshold p.1 st p.2

section
attribute [local semireducible] Rat.mul Rat.add Rat.inv Rat.sub Rat.ofScientific
set_option maxRecDepth 100000

example : variantScore "Counter-Strike 2" "Counter-Strike: Global Offensive" = 14 / 15 := by
  decide

example : variantScore " " "x" = 0.8 := by decide

example : variantScore "(foo)" "[bar]" = 0.95 := by decide

example :
    resolve_discord_game_image_improved "Counter-Strike 2"
      [⟨"Counter-Strike: Global Offensive", ["CS2"], some "7", some "icon1", none⟩]
      0.6 512 =
    some "https://cdn.discordapp.com/app-icons/7/icon1.png?size=512" := by decide

end

theorem commonPrefixLen_nil_left (b : List Char) : commonPrefixLen [] b = 0 := by
  cases b <;> rfl

theorem commonPrefixLen_nil_right (a : List Char) : commonPrefixLen a [] = 0 := by
  cases a <;> rfl

theorem commonPrefixLen_le_left : ∀ a b : List Char, commonPrefixLen a b ≤ a.length := by
  intro a
  induction a with
  | nil => intro b; simp [commonPrefixLen_nil_left]
  | cons c rest ih =>
    intro b
    cases b with
    | nil => simp [commonPrefixLen_nil_right]
    | cons d bs =>
      simp only [commonPrefixLen, List.length_cons]
      split
      · exact Nat.succ_le_succ (ih bs)
      · omega

theorem commonPrefixLen_le_right : ∀ a b : List Char, commonPrefixLen a b ≤ b.length := by
  intro a
  induction a with
  | nil => intro b; simp [commonPrefixLen_nil_left]
  | cons c rest ih =>
    intro b
    cases b with
    | nil => simp [commonPrefixLen_nil_right]
    | cons d bs =>
      simp only [commonPrefixLen, List.length_cons]
      split
      · exact Nat.succ_le_succ (ih bs)
      · omega

theorem commonPrefixLen_take : ∀ a b : List Char,
    a.take (commonPrefixLen a b) = b.take (commonPrefixLen a b) := by
  intro a
  induction a with
  | nil => intro b; simp [commonPrefixLen_nil_left]
  | cons c rest ih =>
    intro b
    cases b with
    | nil => simp [commonPrefixLen_nil_right]
    | cons d bs =>
      simp only [commonPrefixLen]
      split
      · next h => simp [List.take_succ_cons, h, ih bs]
      · simp

theorem bestInRow_spec (q : List Char) : ∀ b : List Char,
    (bestInRow q b).2 = commonPrefixLen q (b.drop (bestInRow q b).1) ∧
      ((bestInRow q b).2 ≠ 0 → (bestInRow q b).1 < b.length) := by
  intro b
  induction b with
  | nil => simp [bestInRow, commonPrefixLen_nil_right]
  | cons c rest ih =>
    simp only [bestInRow]
    split
    · next h =>
      refine ⟨?_, fun hk => ?_⟩
      · simpa [List.drop_succ_cons] using ih.1
      · have := ih.2 hk
        simp only [List.length_cons]
        omega
    · next h =>
      exact ⟨by simp, fun hk => by simp⟩

theorem flmAux_spec (b : List Char) : ∀ a : List Char,
    (flmAux b a).2.2 = commonPrefixLen (a.drop (flmAux b a).1) (b.drop (flmAux b a).2.1) ∧
      ((flmAux b a).2.2 ≠ 0 → (flmAux b a).1 < a.length ∧ (flmAux b a).2.1 < b.length) := by
  intro a
  induction a with
  | nil => simp [flmAux, commonPrefixLen_nil_left]
  | cons c rest ih =>
    simp only [flmAux]
    split
    · next h =>
      refine ⟨?_, fun hk => ?_⟩
      · simpa [List.drop_succ_cons] using ih.1
      · have := ih.2 hk
        simp only [List.length_cons]
        omega
    · next h =>
      refine ⟨?_, fun hk => ?_⟩
      · simpa [List.drop_zero] using (bestInRow_spec (c :: rest) b).1
      · exact ⟨by simp, (bestInRow_spec (c :: rest) b).2 hk⟩

/-- The block returned by `findLongestMatch` is a genuine common block, with
in-range start positions whenever it is non-empty. -/
theorem findLongestMatch_spec (a b : List Char) :
    (findLongestMatch a b).2.2 =
      commonPrefixLen (a.drop (findLongestMatch a b).1) (b.drop (findLongestMatch a b).2.1) ∧
      ((findLongestMatch a b).2.2 ≠ 0 →
        (findLongestMatch a b).1 < a.length ∧ (findLongestMatch a b).2.1 < b.length) :=
  flmAux_spec b a

theorem ratcliffMF_le_left : ∀ (f : Nat) (a b : List Char),
    ratcliffMF f a b ≤ a.length := by
  intro f
  induction f with
  | zero => intro a b; simp [ratcliffMF]
  | succ f ih =>
    intro a b
    simp only [ratcliffMF]
    split
    · simp
    · next hk =>
      have hs := findLongestMatch_spec a b
      have hb := hs.2 hk
      have hcl := commonPrefixLen_le_left
        (a.drop (findLongestMatch a b).1) (b.drop (findLongestMatch a b).2.1)
      rw [← hs.1] at hcl
      have h1 := ih (a.take (findLongestMatch a b).1) (b.take (findLongestMatch a b).2.1)
      have h2 := ih (a.drop ((findLongestMatch a b).1 + (findLongestMatch a b).2.2))
        (b.drop ((findLongestMatch a b).2.1 + (findLongestMatch a b).2.2))
      simp only [List.length_take, List.length_drop] at h1 h2 hcl ⊢
      omega

theorem ratcliffMF_le_right : ∀ (f : Nat) (a b : List Char),
    ratcliffMF f a b ≤ b.length := by
  intro f
  induction f with
  | zero => intro a b; simp [ratcliffMF]
  | succ f ih =>
    intro a b
    simp only [ratcliffMF]
    split
    · simp
    · next hk =>
      have hs := findLongestMatch_spec a b
      have hb := hs.2 hk
      have hcl := commonPrefixLen_le_right
        (a.drop (findLongestMatch a b).1) (b.drop (findLongestMatch a b).2.1)
      rw [← hs.1] at hcl
      have h1 := ih (a.take (findLongestMatch a b).1) (b.take (findLongestMatch a b).2.1)
      have h2 := ih (a.drop ((findLongestMatch a b).1 + (findLongestMatch a b).2.2))
        (b.drop ((findLongestMatch a b).2.1 + (findLongestMatch a b).2.2))
      simp only [List.length_take, List.length_drop] at h1 h2 hcl ⊢
      omega

/-- When the Ratcliff matching blocks cover both strings entirely, the
strings are equal. -/
theorem ratcliffMF_full : ∀ (f : Nat) (a b : List Char),
    a.length + b.length ≤ f → 2 * ratcliffMF f a b = a.length + b.length → a = b := by
  intro f
  induction f with
  | zero =>
    intro a b hf _
    have ha : a = [] := List.eq_nil_of_length_eq_zero (by omega)
    have hb : b = [] := List.eq_nil_of_length_eq_zero (by omega)
    rw [ha, hb]
  | succ f ih =>
    intro a b hf heq
    rw [ratcliffMF] at heq
    split at heq
    · next hk =>
      have ha : a = [] := List.eq_nil_of_length_eq_zero (by omega)
      have hb : b = [] := List.eq_nil_of_length_eq_zero (by omega)
      rw [ha, hb]
    · next hk =>
      have hs := findLongestMatch_spec a b
      have hb := hs.2 hk
      set i := (findLongestMatch a b).1 with hi
      set j := (findLongestMatch a b).2.1 with hj
      set k := (findLongestMatch a b).2.2 with hkk
      have hcl := commonPrefixLen_le_left (a.drop i) (b.drop j)
      have hcr := commonPrefixLen_le_right (a.drop i) (b.drop j)
      rw [← hs.1] at hcl hcr
      have hL1 := ratcliffMF_le_left f (a.take i) (b.take j)
      have hL2 := ratcliffMF_le_right f (a.take i) (b.take j)
      have hR1 := ratcliffMF_le_left f (a.drop (i + k)) (b.drop (j + k))
      have hR2 := ratcliffMF_le_right f (a.drop (i + k)) (b.drop (j + k))
      simp only [List.length_take, List.length_drop] at hL1 hL2 hR1 hR2 heq hcl hcr
      have hib : i < a.length := hb.1
      have hjb : j < b.length := hb.2
      have hkpos : 0 < k := Nat.pos_of_ne_zero hk
      have hEL : 2 * ratcliffMF f (a.take i) (b.take j) = i + j := by omega
      have hER : 2 * ratcliffMF f (a.drop (i + k)) (b.drop (j + k)) =
          (a.length - (i + k)) + (b.length - (j + k)) := by omega
      have heqL : a.take i = b.take j := by
        apply ih
        · simp only [List.length_take]
          omega
        · simp only [List.length_take]
          omega
      have heqR : a.drop (i + k) = b.drop (j + k) := by
        apply ih
        · simp only [List.length_drop]
          omega
        · simp only [List.length_drop]
          omega
      have hmid : (a.drop i).take k = (b.drop j).take k := by
        rw [hs.1]
        exact commonPrefixLen_take (a.drop i) (b.drop j)
      calc a = a.take i ++ a.drop i := (List.take_append_drop i a).symm
        _ = a.take i ++ ((a.drop i).take k ++ (a.drop i).drop k) := by
            rw [List.take_append_drop k (a.drop i)]
        _ = b.take j ++ ((b.drop j).take k ++ (b.drop j).drop k) := by
            rw [heqL, hmid, List.drop_drop, List.drop_drop, heqR]
        _ = b.take j ++ b.drop j := by rw [List.take_append_drop k (b.drop j)]
        _ = b := List.take_append_drop j b

theorem string_eq_of_toList_eq {s t : String} (h : s.toList = t.toList) : s = t :=
  congrArg String.mk h

theorem _similarity_score_nonneg (s t : String) : 0 ≤ _similarity_score s t := by
  simp only [_similarity_score]
  split
  · norm_num
  · positivity

theorem _similarity_score_le_one (s t : String) : _similarity_score s t ≤ 1 := by
  simp only [_similarity_score]
  split
  · exact le_refl 1
  · next hT =>
    have hpos : (0 : ℚ) < (s.toList.length : ℚ) + (t.toList.length : ℚ) := by
      have := Nat.pos_of_ne_zero hT
      exact_mod_cast this
    rw [div_le_one hpos]
    have h1 := ratcliffMF_le_left (s.toList.length + t.toList.length) s.toList t.toList
    have h2 := ratcliffMF_le_right (s.toList.length + t.toList.length) s.toList t.toList
    have : 2 * ratcliffMF (s.toList.length + t.toList.length) s.toList t.toList ≤
        s.toList.length + t.toList.length := by omega
    exact_mod_cast this

theorem _similarity_score_lt_one (s t : String) (h : s ≠ t) : _similarity_score s t < 1 := by
  simp only [_similarity_score]
  split
  · next hT =>
    exfalso
    apply h
    apply string_eq_of_toList_eq
    have hs : s.toList = [] := List.eq_nil_of_length_eq_zero (by omega)
    have ht : t.toList = [] := List.eq_nil_of_length_eq_zero (by omega)
    rw [hs, ht]
  · next hT =>
    have hpos : (0 : ℚ) < (s.toList.length : ℚ) + (t.toList.length : ℚ) := by
      have := Nat.pos_of_ne_zero hT
      exact_mod_cast this
    rw [div_lt_one hpos]
    have h1 := ratcliffMF_le_left (s.toList.length + t.toList.length) s.toList t.toList
    have h2 := ratcliffMF_le_right (s.toList.length + t.toList.length) s.toList t.toList
    have hne : 2 * ratcliffMF (s.toList.length + t.toList.length) s.toList t.toList ≠
        s.toList.length + t.toList.length := by
      intro hcontra
      exact h (string_eq_of_toList_eq
        (ratcliffMF_full (s.toList.length + t.toList.length) s.toList t.toList
          (le_refl _) hcontra))
    have : 2 * ratcliffMF (s.toList.length + t.toList.length) s.toList t.toList <
        s.toList.length + t.toList.length := by omega
    exact_mod_cast this

theorem string_eq_empty_of_length_eq_zero {s : String} (h : s.length = 0) : s = "" := by
  apply string_eq_of_toList_eq
  have hl : s.toList.length = 0 := by
    rw [show s.toList = s.data from rfl, String.length_data]
    exact h
  simpa using List.eq_nil_of_length_eq_zero hl

/-- Arithmetic bounds for the substring-containment score
`0.8 + 0.1 * min/max`. -/
theorem subBranch_bounds (m n : ℕ) (h : ¬(m = 0 ∧ n = 0)) :
    (0.8 : ℚ) ≤ 0.8 + 0.1 * ((min m n : ℕ) : ℚ) / ((max m n : ℕ) : ℚ) ∧
      0.8 + 0.1 * ((min m n : ℕ) : ℚ) / ((max m n : ℕ) : ℚ) ≤ 0.9 ∧
      (m ≠ 0 → n ≠ 0 → m ≠ n →
        0.8 < 0.8 + 0.1 * ((min m n : ℕ) : ℚ) / ((max m n : ℕ) : ℚ) ∧
          0.8 + 0.1 * ((min m n : ℕ) : ℚ) / ((max m n : ℕ) : ℚ) < 0.9) := by
  simp only [mul_div_assoc]
  push_cast
  have hmaxNat : 0 < max m n := by omega
  have hmax : (0 : ℚ) < (max m n : ℚ) := by exact_mod_cast hmaxNat
  have hminNat : min m n ≤ max m n := min_le_max
  have hdivLe : (min m n : ℚ) / (max m n : ℚ) ≤ 1 := by
    rw [div_le_one hmax]
    exact_mod_cast hminNat
  have hdivNonneg : (0 : ℚ) ≤ (min m n : ℚ) / (max m n : ℚ) := by positivity
  refine ⟨by linarith, by linarith, fun hm hn hmn => ?_⟩
  have hminPos : 0 < min m n := by omega
  have hminPosQ : (0 : ℚ) < (min m n : ℚ) := by exact_mod_cast hminPos
  have hdivPos : (0 : ℚ) < (min m n : ℚ) / (max m n : ℚ) := div_pos hminPosQ hmax
  have hlt : min m n < max m n := min_lt_max.mpr hmn
  have hdivLt : (min m n : ℚ) / (max m n : ℚ) < 1 := by
    rw [div_lt_one hmax]
    exact_mod_cast hlt
  constructor <;> linarith

/-- The token-overlap contribution is at most 0.85. -/
theorem tokenBranch_le (q v : String) (h1 : _tokenize q ≠ ∅) (h2 : _tokenize v ≠ ∅) :
    ((_tokenize q ∩ _tokenize v).card : ℚ) /
        (max (_tokenize q).card (_tokenize v).card : ℚ) * 0.85 ≤ 0.85 := by
  have hcard : (_tokenize q ∩ _tokenize v).card ≤ max (_tokenize q).card (_tokenize v).card :=
    le_trans (Finset.card_le_card Finset.inter_subset_left) (le_max_left _ _)
  have hpos : 0 < max (_tokenize q).card (_tokenize v).card := by
    have := Finset.card_pos.mpr (Finset.nonempty_of_ne_empty h1)
    omega
  have hposQ : (0 : ℚ) < (max (_tokenize q).card (_tokenize v).card : ℚ) := by
    exact_mod_cast hpos
  have hdiv : ((_tokenize q ∩ _tokenize v).card : ℚ) /
      (max (_tokenize q).card (_tokenize v).card : ℚ) ≤ 1 := by
    rw [div_le_one hposQ]
    exact_mod_cast hcard
  have hdivNonneg : (0 : ℚ) ≤ ((_tokenize q ∩ _tokenize v).card : ℚ) /
      (max (_tokenize q).card (_tokenize v).card : ℚ) := by positivity
  nlinarith

/-- Rule 1 of the cascade: equal normalized forms score exactly 1. -/
theorem variantScore_eq_one {q v : String} (h : _norm q = _norm v) :
    variantScore q v = 1 := by
  simp only [variantScore]
  rw [if_pos h]

theorem variantScore_le_one (q v : String) : variantScore q v ≤ 1 := by
  have hsim := _similarity_score_le_one
  simp only [variantScore]
  split_ifs with h1 h2 h3 h4 h5 h6 h7 h8
  · norm_num
  · norm_num
  · norm_num
  · have hne : ¬((_norm q).length = 0 ∧ (_norm v).length = 0) := by
      intro hz
      exact h1 (by rw [string_eq_empty_of_length_eq_zero hz.1,
        string_eq_empty_of_length_eq_zero hz.2])
    have hb := (subBranch_bounds (_norm q).length (_norm v).length hne).2.1
    linarith
  · exact max_le (max_le (hsim _ _) (max_le (hsim _ _) (hsim _ _)))
      (le_trans (tokenBranch_le q v h5.1 h5.2) (by norm_num))
  · exact max_le (max_le (hsim _ _) (max_le (hsim _ _) (by norm_num)))
      (le_trans (tokenBranch_le q v h5.1 h5.2) (by norm_num))
  · exact max_le (hsim _ _) (max_le (hsim _ _) (hsim _ _))
  · exact max_le (hsim _ _) (max_le (hsim _ _) (by norm_num))
  · exact max_le (hsim _ _) (max_le (hsim _ _) (hsim _ _))
  · exact max_le (hsim _ _) (max_le (hsim _ _) (by norm_num))

/-- Any variant whose normalized form differs from the query scores
strictly below 1. -/
theorem variantScore_lt_one {q v : String} (h1 : _norm q ≠ _norm v) :
    variantScore q v < 1 := by
  have hlt := _similarity_score_lt_one
  simp only [variantScore]
  split_ifs with h1x h2 h3 h4 h5 h6 h7 h8 h9
  · exact absurd h1x h1
  · norm_num
  · norm_num
  · have hne : ¬((_norm q).length = 0 ∧ (_norm v).length = 0) := by
      intro hz
      exact h1 (by rw [string_eq_empty_of_length_eq_zero hz.1,
        string_eq_empty_of_length_eq_zero hz.2])
    have hb := (subBranch_bounds (_norm q).length (_norm v).length hne).2.1
    linarith
  · apply max_lt (max_lt (hlt _ _ h1) (max_lt (hlt _ _ h2) (hlt _ _ ?_)))
      (lt_of_le_of_lt (tokenBranch_le q v h5.1 h5.2) (by norm_num))
    intro hc
    exact h3 ⟨h7.1, h7.2, hc⟩
  · exact max_lt (max_lt (hlt _ _ h1) (max_lt (hlt _ _ h2) (by norm_num)))
      (lt_of_le_of_lt (tokenBranch_le q v h5.1 h5.2) (by norm_num))
  · apply max_lt (hlt _ _ h1) (max_lt (hlt _ _ h2) (hlt _ _ ?_))
    intro hc
    exact h3 ⟨h8.1, h8.2, hc⟩
  · exact max_lt (hlt _ _ h1) (max_lt (hlt _ _ h2) (by norm_num))
  · apply max_lt (hlt _ _ h1) (max_lt (hlt _ _ h2) (hlt _ _ ?_))
    intro hc
    exact h3 ⟨h9.1, h9.2, hc⟩
  · exact max_lt (hlt _ _ h1) (max_lt (hlt _ _ h2) (by norm_num))

theorem variantsOf_cons (a : DiscordApp) (rest : List DiscordApp) :
    variantsOf (a :: rest) =
      (if a.name = "" then [] else (a.name :: a.aliases).map fun v => (a, v)) ++
        variantsOf rest := by
  simp [variantsOf]

/-- The nested selection loops compute the same fold as the flattened
variant enumeration. -/
theorem selectBest_eq_foldl (q : String) (t : ℚ) (apps : List DiscordApp) :
    selectBest q apps t = (variantsOf apps).foldl (stepSel q t) (none, 0) := by
  suffices h : ∀ (l : List DiscordApp) (init : Option DiscordApp × ℚ),
      l.foldl (fun st app => if app.name = "" then st
        else (app.name :: app.aliases).foldl (considerVariant q t app) st) init
      = (variantsOf l).foldl (stepSel q t) init by
    exact h apps (none, 0)
  intro l
  induction l with
  | nil => intro init; rfl
  | cons a rest ih =>
    intro init
    rw [variantsOf_cons, List.foldl_append, List.foldl_cons]
    by_cases hname : a.name = ""
    · rw [if_pos hname, if_pos hname]
      exact ih init
    · rw [if_neg hname, if_neg hname, List.foldl_map]
      exact ih _

theorem foldl_stepSel_some (q : String) (t : ℚ) :
    ∀ (l : List (DiscordApp × String)) (st : Option DiscordApp × ℚ) (x : DiscordApp),
      st.1 = some x → ∃ y, (l.foldl (stepSel q t) st).1 = some y := by
  intro l
  induction l with
  | nil => intro st x h; exact ⟨x, h⟩
  | cons p rest ih =>
    intro st x h
    rw [List.foldl_cons]
    by_cases hc : st.2 < variantScore q p.2 ∧ t ≤ variantScore q p.2
    · refine ih _ p.1 ?_
      simp only [stepSel, considerVariant]
      rw [if_pos hc]
    · refine ih _ x ?_
      simp only [stepSel, considerVariant]
      rw [if_neg hc]
      exact h

/-- The fold starting from an empty best returns no match exactly when no
variant both improves on the starting score and clears the threshold. -/
theorem foldl_stepSel_none_iff (q : String) (t : ℚ) :
    ∀ (l : List (DiscordApp × String)) (bs : ℚ),
      (l.foldl (stepSel q t) (none, bs)).1 = none ↔
        ∀ p ∈ l, ¬(bs < variantScore q p.2 ∧ t ≤ variantScore q p.2) := by
  intro l
  induction l with
  | nil => intro bs; simp
  | cons p rest ih =>
    intro bs
    rw [List.foldl_cons]
    by_cases hc : bs < variantScore q p.2 ∧ t ≤ variantScore q p.2
    · have hstep : stepSel q t (none, bs) p = (some p.1, variantScore q p.2) := by
        simp only [stepSel, considerVariant]
        rw [if_pos hc]
      rw [hstep]
      constructor
      · intro hnone
        obtain ⟨y, hy⟩ := foldl_stepSel_some q t rest (some p.1, variantScore q p.2) p.1 rfl
        rw [hy] at hnone
        exact absurd hnone (by simp)
      · intro hall
        exact absurd hc (hall p (List.mem_cons_self p rest))
    · have hstep : stepSel q t (none, bs) p = (none, bs) := by
        simp only [stepSel, considerVariant]
        rw [if_neg hc]
      rw [hstep, ih bs]
      constructor
      · intro hall p' hp'
        rcases List.mem_cons.mp hp' with heq | hmem
        · rw [heq]
          exact hc
        · exact hall p' hmem
      · intro hall p' hp'
        exact hall p' (List.mem_cons_of_mem p hp')

/-- The overall selection returns no match exactly when no variant scores
both above zero and at least the threshold. -/
theorem selectBest_none_iff (q : String) (apps : List DiscordApp) (t : ℚ) :
    (selectBest q apps t).1 = none ↔
      ∀ p ∈ variantsOf apps, ¬(0 < variantScore q p.2 ∧ t ≤ variantScore q p.2) := by
  rw [selectBest_eq_foldl q t apps]
  exact foldl_stepSel_none_iff q t (variantsOf apps) 0

theorem foldl_stepSel_lt_one (q : String) (t : ℚ) :
    ∀ (l : List (DiscordApp × String)) (st : Option DiscordApp × ℚ), st.2 < 1 →
      (∀ p ∈ l, variantScore q p.2 < 1) → (l.foldl (stepSel q t) st).2 < 1 := by
  intro l
  induction l with
  | nil => intro st h _; exact h
  | cons p rest ih =>
    intro st h hall
    rw [List.foldl_cons]
    by_cases hc : st.2 < variantScore q p.2 ∧ t ≤ variantScore q p.2
    · refine ih _ ?_ (fun p' hp' => hall p' (List.mem_cons_of_mem p hp'))
      have hstep : stepSel q t st p = (some p.1, variantScore q p.2) := by
        simp only [stepSel, considerVariant]
        rw [if_pos hc]
      rw [hstep]
      exact hall p (List.mem_cons_self p rest)
    · refine ih _ ?_ (fun p' hp' => hall p' (List.mem_cons_of_mem p hp'))
      have hstep : stepSel q t st p = st := by
        simp only [stepSel, considerVariant]
        rw [if_neg hc]
      rw [hstep]
      exact h

theorem foldl_stepSel_no_improvement (q : String) (t : ℚ) :
    ∀ (l : List (DiscordApp × String)) (st : Option DiscordApp × ℚ),
      (∀ p ∈ l, variantScore q p.2 ≤ st.2) → l.foldl (stepSel q t) st = st := by
  intro l
  induction l with
  | nil => intro st _; rfl
  | cons p rest ih =>
    intro st hall
    rw [List.foldl_cons]
    have hstep : stepSel q t st p = st := by
      simp only [stepSel, considerVariant]
      rw [if_neg]
      intro hc
      exact absurd (hall p (List.mem_cons_self p rest)) (not_le.mpr hc.1)
    rw [hstep]
    exact ih st (fun p' hp' => hall p' (List.mem_cons_of_mem p hp'))

/-- When `sep` occurs in `l`, `beforeFirst l sep` (i.e. `l.split(sep)[0]`)
is the prefix of `l` of length `i`, where `i` is the position of the FIRST
occurrence of `sep` in `l`: `sep` starts at index `i` and at no earlier
index. -/
theorem beforeFirst_spec (sep : List Char) : ∀ l : List Char,
    strContains l sep = true →
      ∃ i, beforeFirst l sep = l.take i ∧ sep.isPrefixOf (l.drop i) = true ∧
        ∀ j < i, sep.isPrefixOf (l.drop j) = false := by
  intro l
  induction l with
  | nil =>
    intro h
    refine ⟨0, rfl, ?_, fun j hj => absurd hj (by omega)⟩
    unfold strContains at h
    rw [List.any_eq_true] at h
    obtain ⟨t, ht, hpre⟩ := h
    rw [List.mem_tails] at ht
    have htn : t = [] := List.suffix_nil.mp ht
    subst htn
    exact hpre
  | cons c rest ih =>
    intro h
    by_cases hc : sep.isPrefixOf (c :: rest) = true
    · refine ⟨0, ?_, hc, fun j hj => absurd hj (by omega)⟩
      rw [beforeFirst, if_pos hc]
      rfl
    · have hcf : sep.isPrefixOf (c :: rest) = false := Bool.eq_false_iff.mpr hc
      have hrest : strContains rest sep = true := by
        unfold strContains at h ⊢
        rw [List.tails_cons, List.any_cons] at h
        rcases (Bool.or_eq_true _ _).mp h with h1 | h1
        · exact absurd h1 hc
        · exact h1
      obtain ⟨i, hb, hp, hf⟩ := ih hrest
      refine ⟨i + 1, ?_, ?_, ?_⟩
      · rw [beforeFirst, if_neg hc, hb, List.take_succ_cons]
      · rw [List.drop_succ_cons]
        exact hp
      · intro j hj
        cases j with
        | zero => exact hcf
        | succ jp =>
          rw [List.drop_succ_cons]
          exact hf jp (by omega)

section ConcreteEvaluations
attribute [local semireducible] Rat.mul Rat.add Rat.inv Rat.sub Rat.ofScientific
set_option maxRecDepth 100000

/-- C1 counterexample: a whitespace-only (blank but non-empty) query is not
rejected by the `if not game_name` guard; it is scored, the empty normalized
query is a substring of any candidate (score 0.8), and a URL is returned. -/
theorem C1_counterexample :
    resolve_discord_game_image_improved " "
      [⟨"x", [], some "1", some "h", none⟩] 0.6 512 =
      some "https://cdn.discordapp.com/app-icons/1/h.png?size=512" := by
  decide

/-- C1 (amended): only the literally empty query short-circuits; an empty
catalog also short-circuits, for every query. -/
theorem C1_empty_query_or_catalog :
    ∀ (discord_apps : List DiscordApp) (q : String) (t : ℚ) (s : ℕ),
      resolve_discord_game_image_improved "" discord_apps t s = none ∧
        resolve_discord_game_image_improved q [] t s = none := by
  intro discord_apps q t s
  constructor
  · rw [resolve_discord_game_image_improved, if_pos (Or.inl rfl)]
  · rw [resolve_discord_game_image_improved, if_pos (Or.inr rfl)]

/-- C2 counterexample: for the name `"A - B: C"`, whose first separator in
left-to-right position order is `" - "`, the core is nevertheless the part
before the colon, because the separator list is tried in priority order with
`":"` first. -/
theorem C2_counterexample :
    _extract_core_name "A - B: C" = "A - B" ∧ ("A - B" : String) ≠ "A" := by
  constructor
  · decide
  · decide

/-- C2 (amended): the separators are tried in the fixed priority order
`[":", " - ", en dash, em dash]`, not in left-to-right position order: the
core is the stripped prefix of the name before the FIRST occurrence of the
highest-priority separator that occurs anywhere in the name (a colon
dominates all dashes, `" - "` dominates both bare dashes, the en dash
dominates the em dash), and a name containing no separator at all is its
own core. -/
theorem C2_core_name_priority : ∀ s : String,
    (strContains s.toList [':'] = true →
      ∃ i, _extract_core_name s = String.mk (stripChars (s.toList.take i)) ∧
        [':'].isPrefixOf (s.toList.drop i) = true ∧
        ∀ j < i, [':'].isPrefixOf (s.toList.drop j) = false) ∧
      (strContains s.toList [':'] = false →
        strContains s.toList [' ', '-', ' '] = true →
        ∃ i, _extract_core_name s = String.mk (stripChars (s.toList.take i)) ∧
          [' ', '-', ' '].isPrefixOf (s.toList.drop i) = true ∧
          ∀ j < i, [' ', '-', ' '].isPrefixOf (s.toList.drop j) = false) ∧
      (strContains s.toList [':'] = false →
        strContains s.toList [' ', '-', ' '] = false →
        strContains s.toList ['–'] = true →
        ∃ i, _extract_core_name s = String.mk (stripChars (s.toList.take i)) ∧
          ['–'].isPrefixOf (s.toList.drop i) = true ∧
          ∀ j < i, ['–'].isPrefixOf (s.toList.drop j) = false) ∧
      (strContains s.toList [':'] = false →
        strContains s.toList [' ', '-', ' '] = false →
        strContains s.toList ['–'] = false →
        strContains s.toList ['—'] = true →
        ∃ i, _extract_core_name s = String.mk (stripChars (s.toList.take i)) ∧
          ['—'].isPrefixOf (s.toList.drop i) = true ∧
          ∀ j < i, ['—'].isPrefixOf (s.toList.drop j) = false) ∧
      (strContains s.toList [':'] = false →
        strContains s.toList [' ', '-', ' '] = false →
        strContains s.toList ['–'] = false →
        strContains s.toList ['—'] = false →
        _extract_core_name s = s) := by
  intro s
  refine ⟨fun h1 => ?_, fun h1 h2 => ?_, fun h1 h2 h3 => ?_,
    fun h1 h2 h3 h4 => ?_, fun h1 h2 h3 h4 => ?_⟩
  · obtain ⟨i, hb, hp, hf⟩ := beforeFirst_spec [':'] s.toList h1
    refine ⟨i, ?_, hp, hf⟩
    rw [_extract_core_name, if_pos h1, hb]
  · obtain ⟨i, hb, hp, hf⟩ := beforeFirst_spec [' ', '-', ' '] s.toList h2
    refine ⟨i, ?_, hp, hf⟩
    rw [_extract_core_name, if_neg (by rw [h1]; exact Bool.false_ne_true), if_pos h2, hb]
  · obtain ⟨i, hb, hp, hf⟩ := beforeFirst_spec ['–'] s.toList h3
    refine ⟨i, ?_, hp, hf⟩
    rw [_extract_core_name, if_neg (by rw [h1]; exact Bool.false_ne_true), if_neg (by rw [h2]; exact Bool.false_ne_true), if_pos h3, hb]
  · obtain ⟨i, hb, hp, hf⟩ := beforeFirst_spec ['—'] s.toList h4
    refine ⟨i, ?_, hp, hf⟩
    rw [_extract_core_name, if_neg (by rw [h1]; exact Bool.false_ne_true), if_neg (by rw [h2]; exact Bool.false_ne_true),
      if_neg (by rw [h3]; exact Bool.false_ne_true), if_pos h4, hb]
  · rw [_extract_core_name, if_neg (by rw [h1]; exact Bool.false_ne_true), if_neg (by rw [h2]; exact Bool.false_ne_true),
      if_neg (by rw [h3]; exact Bool.false_ne_true), if_neg (by rw [h4]; exact Bool.false_ne_true)]

/-- For `"A – B - C"` the en dash occurs first in position order (index 2)
but `" - "` is higher in the priority list, so the core is the prefix before
the first `" - "` (index 5): `"A – B"`. -/
theorem C2_core_name_priority_witness :
    _extract_core_name "A – B - C" = "A – B" ∧
      (∃ i, _extract_core_name "A – B - C" =
          String.mk (stripChars ("A – B - C".toList.take i)) ∧
        [' ', '-', ' '].isPrefixOf ("A – B - C".toList.drop i) = true ∧
        ∀ j < i, [' ', '-', ' '].isPrefixOf ("A – B - C".toList.drop j) = false) :=
  ⟨by decide, (C2_core_name_priority "A – B - C").2.1 (by decide) (by decide)⟩

/-- C3 counterexample: the clean-equality rule has no non-emptiness guard in
the code.  For query `"(foo)"` against name `"[bar]"` the normalized forms
differ and both cleaned forms are empty, yet the cascade stops at 0.95 and,
at threshold 0.6, the entry is selected and its URL returned. -/
theorem C3_counterexample :
    _norm "(foo)" ≠ _norm "[bar]" ∧
      _clean_game_name "(foo)" = "" ∧ _clean_game_name "[bar]" = "" ∧
      variantScore "(foo)" "[bar]" = 0.95 ∧
      resolve_discord_game_image_improved "(foo)"
        [⟨"[bar]", [], some "1", some "h", none⟩] 0.6 512 =
        some "https://cdn.discordapp.com/app-icons/1/h.png?size=512" := by
  refine ⟨by decide, by decide, by decide, by decide, by decide⟩

/-- C3 (amended): the 0.95 rule fires whenever the cleaned forms are equal
and the normalized forms differ, with no non-emptiness requirement: two
variants whose cleaned forms are both empty also stop the cascade at
0.95. -/
theorem C3_clean_equality_rule (q v : String) (h1 : _norm q ≠ _norm v)
    (h2 : _clean_game_name q = _clean_game_name v) : variantScore q v = 0.95 := by
  simp only [variantScore]
  rw [if_neg h1, if_pos h2]

theorem C3_clean_equality_rule_witness : variantScore "(foo)" "[bar]" = 0.95 :=
  C3_clean_equality_rule "(foo)" "[bar]" (by decide) (by decide)

/-- C4 counterexample: Scenario B does not return null. -/
theorem C4_counterexample :
    resolve_discord_game_image_improved "Counter-Strike 2"
      [⟨"Counter-Strike: Global Offensive", ["CS2"], some "7", some "icon1", none⟩]
      0.6 512 ≠ none := by
  decide

/-- C4 (amended): in Scenario B the name variant
`"Counter-Strike: Global Offensive"` reaches the similarity fallback, where
the core-name similarity of `"counter-strike 2"` and `"counter-strike"` is
14/15, clearing the 0.6 threshold, so the entry wins and its icon URL is
returned. -/
theorem C4_scenario_b :
    variantScore "Counter-Strike 2" "Counter-Strike: Global Offensive" = 14 / 15 ∧
      resolve_discord_game_image_improved "Counter-Strike 2"
        [⟨"Counter-Strike: Global Offensive", ["CS2"], some "7", some "icon1", none⟩]
        0.6 512 =
        some "https://cdn.discordapp.com/app-icons/7/icon1.png?size=512" := by
  refine ⟨by decide, by decide⟩

end ConcreteEvaluations

/-- C5: the running best is replaced only on a strictly greater score that
also meets the threshold (so equal scores keep the earlier candidate), and
for any threshold at most 1, the entry owning the first variant (in catalog
order, name before aliases, empty-named entries skipped) whose trimmed,
case-folded form equals the query's is the selected winner, that variant
scoring exactly 1. -/
theorem C5_selection :
    (∀ (q v : String) (t : ℚ) (app : DiscordApp) (st : Option DiscordApp × ℚ),
      ¬(st.2 < variantScore q v ∧ t ≤ variantScore q v) →
        considerVariant q t app st v = st) ∧
      (∀ (q : String) (apps : List DiscordApp) (t : ℚ)
          (L1 L2 : List (DiscordApp × String)) (a : DiscordApp) (v : String),
        t ≤ 1 →
        variantsOf apps = L1 ++ (a, v) :: L2 →
        _norm q = _norm v →
        (∀ p ∈ L1, _norm q ≠ _norm p.2) →
        (selectBest q apps t).1 = some a ∧ variantScore q v = 1) := by
  constructor
  · intro q v t app st h
    simp only [considerVariant]
    rw [if_neg h]
  · intro q apps t L1 L2 a v ht hsplit hnorm hne
    have hscore : variantScore q v = 1 := variantScore_eq_one hnorm
    refine ⟨?_, hscore⟩
    rw [selectBest_eq_foldl, hsplit, List.foldl_append, List.foldl_cons]
    have hlt1 : (L1.foldl (stepSel q t) (none, 0)).2 < 1 :=
      foldl_stepSel_lt_one q t L1 (none, 0) (by norm_num)
        (fun p hp => variantScore_lt_one (hne p hp))
    have hstep : stepSel q t (L1.foldl (stepSel q t) (none, 0)) (a, v) = (some a, 1) := by
      simp only [stepSel, considerVariant]
      rw [if_pos (by rw [hscore]; exact ⟨hlt1, ht⟩), hscore]
    rw [hstep]
    rw [foldl_stepSel_no_improvement q t L2 (some a, 1)
      (fun p _ => variantScore_le_one q p.2)]

theorem C5_selection_witness :
    (selectBest "BAR " [⟨"Foo", [], none, none, none⟩,
        ⟨"Bar", ["x"], some "9", none, some "c"⟩] 0.6).1 =
      some ⟨"Bar", ["x"], some "9", none, some "c"⟩ ∧
      variantScore "BAR " "Bar" = 1 :=
  C5_selection.2 "BAR " [⟨"Foo", [], none, none, none⟩,
      ⟨"Bar", ["x"], some "9", none, some "c"⟩] 0.6
    [(⟨"Foo", [], none, none, none⟩, "Foo")]
    [(⟨"Bar", ["x"], some "9", none, some "c"⟩, "x")]
    ⟨"Bar", ["x"], some "9", none, some "c"⟩ "Bar"
    (by norm_num) (by decide) (by decide) (by decide)

/-- Raising the threshold leaves the selection fold either empty-handed or
in exactly the same state: the running pair at the higher threshold is
`(none, 0)` while the lower-threshold score is still below the higher
threshold (or nonpositive), and the two folds coincide from the moment a
variant clears the higher threshold. -/
theorem foldl_stepSel_mono (q : String) (t1 t2 : ℚ) (h12 : t1 ≤ t2) :
    ∀ (l : List (DiscordApp × String)) (X Y : Option DiscordApp × ℚ),
      ((Y = ((none : Option DiscordApp), (0 : ℚ)) ∧ (X.2 < t2 ∨ X.2 ≤ 0)) ∨
        (Y = X ∧ t2 ≤ X.2)) →
      ((l.foldl (stepSel q t2) Y = ((none : Option DiscordApp), (0 : ℚ)) ∧
          ((l.foldl (stepSel q t1) X).2 < t2 ∨ (l.foldl (stepSel q t1) X).2 ≤ 0)) ∨
        (l.foldl (stepSel q t2) Y = l.foldl (stepSel q t1) X ∧
          t2 ≤ (l.foldl (stepSel q t1) X).2)) := by
  intro l
  induction l with
  | nil =>
    intro X Y hinv
    rcases hinv with ⟨hY, hX⟩ | ⟨hY, hX⟩
    · exact Or.inl ⟨hY, hX⟩
    · exact Or.inr ⟨hY, hX⟩
  | cons p rest ih =>
    intro X Y hinv
    rw [List.foldl_cons, List.foldl_cons]
    rcases hinv with ⟨hY, hX⟩ | ⟨hY, hX⟩
    · subst hY
      by_cases hc2 : (0 : ℚ) < variantScore q p.2 ∧ t2 ≤ variantScore q p.2
      · have hstep2 : stepSel q t2 ((none : Option DiscordApp), (0 : ℚ)) p =
            (some p.1, variantScore q p.2) := by
          simp only [stepSel, considerVariant]
          rw [if_pos hc2]
        have hc1 : X.2 < variantScore q p.2 ∧ t1 ≤ variantScore q p.2 := by
          constructor
          · rcases hX with h | h
            · exact lt_of_lt_of_le h hc2.2
            · exact lt_of_le_of_lt h hc2.1
          · exact le_trans h12 hc2.2
        have hstep1 : stepSel q t1 X p = (some p.1, variantScore q p.2) := by
          simp only [stepSel, considerVariant]
          rw [if_pos hc1]
        rw [hstep2, hstep1]
        exact ih _ _ (Or.inr ⟨rfl, hc2.2⟩)
      · have hstep2 : stepSel q t2 ((none : Option DiscordApp), (0 : ℚ)) p =
            ((none : Option DiscordApp), (0 : ℚ)) := by
          simp only [stepSel, considerVariant]
          rw [if_neg hc2]
        rw [hstep2]
        by_cases hc1 : X.2 < variantScore q p.2 ∧ t1 ≤ variantScore q p.2
        · have hstep1 : stepSel q t1 X p = (some p.1, variantScore q p.2) := by
            simp only [stepSel, considerVariant]
            rw [if_pos hc1]
          rw [hstep1]
          refine ih _ _ (Or.inl ⟨rfl, ?_⟩)
          rcases not_and_or.mp hc2 with h | h
          · exact Or.inr (le_of_not_lt h)
          · exact Or.inl (lt_of_not_le h)
        · have hstep1 : stepSel q t1 X p = X := by
            simp only [stepSel, considerVariant]
            rw [if_neg hc1]
          rw [hstep1]
          exact ih _ _ (Or.inl ⟨rfl, hX⟩)
    · subst hY
      by_cases hlt : Y.2 < variantScore q p.2
      · have hc : Y.2 < variantScore q p.2 ∧ t2 ≤ variantScore q p.2 :=
          ⟨hlt, le_trans hX (le_of_lt hlt)⟩
        have hc1 : Y.2 < variantScore q p.2 ∧ t1 ≤ variantScore q p.2 :=
          ⟨hlt, le_trans h12 hc.2⟩
        have hstep2 : stepSel q t2 Y p = (some p.1, variantScore q p.2) := by
          simp only [stepSel, considerVariant]
          rw [if_pos hc]
        have hstep1 : stepSel q t1 Y p = (some p.1, variantScore q p.2) := by
          simp only [stepSel, considerVariant]
          rw [if_pos hc1]
        rw [hstep2, hstep1]
        exact ih _ _ (Or.inr ⟨rfl, hc.2⟩)
      · have hstep2 : stepSel q t2 Y p = Y := by
          simp only [stepSel, considerVariant]
          rw [if_neg (fun hc => hlt hc.1)]
        have hstep1 : stepSel q t1 Y p = Y := by
          simp only [stepSel, considerVariant]
          rw [if_neg (fun hc => hlt hc.1)]
        rw [hstep2, hstep1]
        exact ih _ _ (Or.inr ⟨rfl, hX⟩)

/-- C6: threshold monotonicity — a null result at a lower threshold stays
null at any higher threshold. -/
theorem C6_threshold_monotone :
    ∀ (q : String) (apps : List DiscordApp) (t1 t2 : ℚ) (s : ℕ),
      t1 ≤ t2 →
      resolve_discord_game_image_improved q apps t1 s = none →
      resolve_discord_game_image_improved q apps t2 s = none := by
  intro q apps t1 t2 s h12 hnone
  rw [resolve_discord_game_image_improved] at hnone ⊢
  by_cases hg : q = "" ∨ apps = []
  · rw [if_pos hg]
  · rw [if_neg hg] at hnone ⊢
    have hmono := foldl_stepSel_mono q t1 t2 h12 (variantsOf apps)
      ((none : Option DiscordApp), (0 : ℚ)) ((none : Option DiscordApp), (0 : ℚ))
      (Or.inl ⟨rfl, Or.inr (le_refl 0)⟩)
    rw [← selectBest_eq_foldl, ← selectBest_eq_foldl] at hmono
    rcases hmono with ⟨h2none, _⟩ | ⟨heq, _⟩
    · rw [h2none]
    · rw [heq]
      exact hnone

section ConcreteWitnesses
attribute [local semireducible] Rat.mul Rat.add Rat.inv Rat.sub Rat.ofScientific
set_option maxRecDepth 100000

theorem C6_threshold_monotone_witness :
    resolve_discord_game_image_improved "abc" [⟨"xyz", [], none, none, none⟩] 0.9 512 = none :=
  C6_threshold_monotone "abc" [⟨"xyz", [], none, none, none⟩] 0.5 0.9 512
    (by norm_num) (by decide)

end ConcreteWitnesses

/-- C7: URL resolution for the winning entry — no truthy id gives null;
with an id, a truthy cover token takes precedence and yields the app-assets
URL; otherwise a truthy icon token yields the app-icons URL; with neither
token the result is null.  The resolver returns exactly this URL for the
selected entry. -/
theorem C7_url_resolution :
    (∀ (e : DiscordApp) (s : ℕ),
      (truthy e.id = false → urlFor e s = none) ∧
        (truthy e.id = true → truthy e.cover_image = true →
          urlFor e s = some ("https://cdn.discordapp.com/app-assets/" ++ e.id.getD "" ++ "/"
            ++ e.cover_image.getD "" ++ ".png?size=" ++ toString s)) ∧
        (truthy e.id = true → truthy e.cover_image = false → truthy e.icon_hash = true →
          urlFor e s = some ("https://cdn.discordapp.com/app-icons/" ++ e.id.getD "" ++ "/"
            ++ e.icon_hash.getD "" ++ ".png?size=" ++ toString s)) ∧
        (truthy e.cover_image = false → truthy e.icon_hash = false → urlFor e s = none)) ∧
      (∀ (q : String) (apps : List DiscordApp) (t : ℚ) (s : ℕ) (e : DiscordApp),
        q ≠ "" → apps ≠ [] → (selectBest q apps t).1 = some e →
        resolve_discord_game_image_improved q apps t s = urlFor e s) := by
  constructor
  · intro e s
    refine ⟨fun hid => ?_, fun hid hcov => ?_, fun hid hcov hicon => ?_, fun hcov hicon => ?_⟩
    · simp [urlFor, hid]
    · simp [urlFor, hid, hcov]
    · simp [urlFor, hid, hcov, hicon]
    · simp [urlFor, hcov, hicon]
  · intro q apps t s e hq happs hsel
    rw [resolve_discord_game_image_improved,
      if_neg (by rintro (h | h) <;> [exact hq h; exact happs h]), hsel]

theorem C7_url_resolution_witness :
    urlFor ⟨"n", [], some "1", some "h", some "c"⟩ 512 =
      some ("https://cdn.discordapp.com/app-assets/" ++ "1" ++ "/" ++ "c"
        ++ ".png?size=" ++ toString 512) :=
  (C7_url_resolution.1 ⟨"n", [], some "1", some "h", some "c"⟩ 512).2.1
    (by decide) (by decide)

/-- A substring whose length equals the containing string's length is the
whole string. -/
theorem strContains_eq_of_length {h n : List Char} (hc : strContains h n = true)
    (hl : n.length = h.length) : n = h := by
  unfold strContains at hc
  rw [List.any_eq_true] at hc
  obtain ⟨t, ht, hpre⟩ := hc
  rw [List.mem_tails] at ht
  rw [ List.isPrefixOf_iff_prefix] at hpre
  have h1 : n.length ≤ t.length := hpre.length_le
  have h2 : t.length ≤ h.length := ht.length_le
  have hth : t = h := ht.eq_of_length (by omega)
  subst hth
  exact hpre.eq_of_length hl

/-- C8 (amended): in the substring branch the score is always within
`[0.8, 0.9]`, and strictly inside `(0.8, 0.9)` whenever both normalized
forms are non-empty; the left bound is attained exactly when one normalized
form is empty (e.g. a whitespace-only query). -/
theorem C8_substring_bounds (q v : String)
    (h1 : _norm q ≠ _norm v)
    (h2 : _clean_game_name q ≠ _clean_game_name v)
    (h3 : ¬(_norm (_extract_core_name q) ≠ "" ∧ _norm (_extract_core_name v) ≠ "" ∧
      _norm (_extract_core_name q) = _norm (_extract_core_name v)))
    (h4 : (strContainsS (_norm v) (_norm q) || strContainsS (_norm q) (_norm v)) = true) :
    ((0.8 : ℚ) ≤ variantScore q v ∧ variantScore q v ≤ 0.9) ∧
      (_norm q ≠ "" → _norm v ≠ "" →
        0.8 < variantScore q v ∧ variantScore q v < 0.9) := by
  have hne : ¬((_norm q).length = 0 ∧ (_norm v).length = 0) := by
    intro hz
    exact h1 (by rw [string_eq_empty_of_length_eq_zero hz.1,
      string_eq_empty_of_length_eq_zero hz.2])
  have hform : variantScore q v =
      0.8 + 0.1 * (((min (_norm q).length (_norm v).length : ℕ)) : ℚ) /
        (((max (_norm q).length (_norm v).length : ℕ)) : ℚ) := by
    simp only [variantScore]
    rw [if_neg h1, if_neg h2, if_neg h3, if_pos h4]
  rw [hform]
  have hb := subBranch_bounds (_norm q).length (_norm v).length hne
  refine ⟨⟨hb.1, hb.2.1⟩, fun hq hv => ?_⟩
  apply hb.2.2
  · exact fun h0 => hq (string_eq_empty_of_length_eq_zero h0)
  · exact fun h0 => hv (string_eq_empty_of_length_eq_zero h0)
  · intro heqlen
    have e1 : (_norm q).toList.length = (_norm q).length := String.length_data _
    have e2 : (_norm v).toList.length = (_norm v).length := String.length_data _
    rcases Bool.or_eq_true _ _ |>.mp h4 with hcontain | hcontain
    · exact h1 (string_eq_of_toList_eq
        (strContains_eq_of_length hcontain (by omega)))
    · exact h1 (string_eq_of_toList_eq
        (strContains_eq_of_length hcontain (by omega)).symm)

/-- C9: the divisors of the two scoring divisions are positive on the
branches where they are evaluated, and the resolver is a total function
returning null or a URL for every input. -/
theorem C9_total_and_guarded :
    ∀ (q v : String) (apps : List DiscordApp) (t : ℚ) (s : ℕ),
      ((_norm q ≠ _norm v ∧
          (strContainsS (_norm v) (_norm q) || strContainsS (_norm q) (_norm v)) = true) →
        0 < max (_norm q).length (_norm v).length) ∧
        ((_tokenize q ≠ ∅ ∧ _tokenize v ≠ ∅) →
          0 < max (_tokenize q).card (_tokenize v).card) ∧
        (resolve_discord_game_image_improved q apps t s = none ∨
          ∃ u, resolve_discord_game_image_improved q apps t s = some u) := by
  intro q v apps t s
  refine ⟨fun h => ?_, fun h => ?_, ?_⟩
  · by_contra h0
    have hz : (_norm q).length = 0 ∧ (_norm v).length = 0 := by omega
    exact h.1 (by rw [string_eq_empty_of_length_eq_zero hz.1,
      string_eq_empty_of_length_eq_zero hz.2])
  · have := Finset.card_pos.mpr (Finset.nonempty_of_ne_empty h.1)
    omega
  · cases hr : resolve_discord_game_image_improved q apps t s with
    | none => exact Or.inl rfl
    | some u => exact Or.inr ⟨u, rfl⟩

theorem C9_total_and_guarded_witness :
    0 < max (_norm "ab").length (_norm "a").length ∧
      0 < max (_tokenize "ab").card (_tokenize "cd").card :=
  ⟨(C9_total_and_guarded "ab" "a" [] 0 0).1 ⟨by decide, by decide⟩,
    (C9_total_and_guarded "ab" "cd" [] 0 0).2.1 ⟨by decide, by decide⟩⟩

theorem mem_variantsOf {p : DiscordApp × String} {apps : List DiscordApp}
    (hp : p ∈ variantsOf apps) : p.1 ∈ apps ∧ p.2 ∈ p.1.name :: p.1.aliases := by
  unfold variantsOf at hp
  rw [List.mem_flatMap] at hp
  obtain ⟨a, ha, hmem⟩ := hp
  by_cases hname : a.name = ""
  · rw [if_pos hname] at hmem
    simp at hmem
  · rw [if_neg hname] at hmem
    rw [List.mem_map] at hmem
    obtain ⟨v, hv, rfl⟩ := hmem
    exact ⟨ha, hv⟩

/-- C10: the resolver returns a URL only if some variant scores strictly
above zero (and at least the threshold); when every name and alias scores
exactly zero against the query, the result is null for every threshold,
including zero and negative thresholds. -/
theorem C10_zero_scores_yield_none :
    ∀ (q : String) (apps : List DiscordApp) (t : ℚ) (s : ℕ),
      (∀ a ∈ apps, ∀ v ∈ a.name :: a.aliases, variantScore q v = 0) →
      resolve_discord_game_image_improved q apps t s = none := by
  intro q apps t s hall
  rw [resolve_discord_game_image_improved]
  by_cases hg : q = "" ∨ apps = []
  · rw [if_pos hg]
  · rw [if_neg hg]
    have hnone : (selectBest q apps t).1 = none := by
      apply (selectBest_none_iff q apps t).mpr
      intro p hp hcond
      have hm := mem_variantsOf hp
      rw [hall p.1 hm.1 p.2 hm.2] at hcond
      exact absurd hcond.1 (lt_irrefl 0)
    rw [hnone]

section ConcreteWitnessesB
attribute [local semireducible] Rat.mul Rat.add Rat.inv Rat.sub Rat.ofScientific
set_option maxRecDepth 100000

/-- C8 counterexample: for the whitespace query `" "` against the name
`"x"`, none of the first three rules applies, the empty normalized query is
contained in `"x"`, and the substring score is exactly 0.8 — not strictly
greater than 0.8. -/
theorem C8_counterexample :
    _norm " " ≠ _norm "x" ∧
      _clean_game_name " " ≠ _clean_game_name "x" ∧
      ¬(_norm (_extract_core_name " ") ≠ "" ∧ _norm (_extract_core_name "x") ≠ "" ∧
        _norm (_extract_core_name " ") = _norm (_extract_core_name "x")) ∧
      (strContainsS (_norm "x") (_norm " ") || strContainsS (_norm " ") (_norm "x")) = true ∧
      variantScore " " "x" = 0.8 := by
  refine ⟨by decide, by decide, by decide, by decide, by decide⟩

theorem C8_substring_bounds_witness :
    ((0.8 : ℚ) ≤ variantScore "abcd" "abc" ∧ variantScore "abcd" "abc" ≤ 0.9) ∧
      (0.8 < variantScore "abcd" "abc" ∧ variantScore "abcd" "abc" < 0.9) := by
  have h := C8_substring_bounds "abcd" "abc" (by decide) (by decide) (by decide) (by decide)
  exact ⟨h.1, h.2 (by decide) (by decide)⟩

theorem C10_zero_scores_yield_none_witness :
    resolve_discord_game_image_improved "abc"
      [⟨"xyz", [], some "1", some "h", none⟩] (-1) 512 = none :=
  C10_zero_scores_yield_none "abc" [⟨"xyz", [], some "1", some "h", none⟩] (-1) 512
    (by decide)

end ConcreteWitnessesB
